import Mathlib

/-!
Verification of the asn1smith DER decoder and TUI navigation state machine.

The Rust sources are shallowly embedded:
  * bytes are `Nat` values (`u8` operations are written with `%` and `/`,
    which agree with the bit operations for values below 256);
  * `u32` and `usize` arithmetic wraps, written with an explicit `% 2^32`
    resp. `% 2^64`;
  * the borrow of the input slice held by `DerParser` becomes a pair of the
    full input list and a cursor position, exactly as in the source;
  * fallible reads return `Option`, the TLV parse returns `Except`;
  * `while` loops become fuelled or structural recursions; fuel passed at
    the call sites is always sufficient, so the embedded functions compute
    the same results as the source loops.
-/

namespace Asn1Smith

/-- src/der_parser.rs: `enum TagClass`. -/
inductive TagClass where
  | Universal
  | Application
  | ContextSpecific
  | Private
deriving DecidableEq, Repr

/-- src/der_parser.rs: `struct Tag`. The Rust field `class` is a Lean
keyword and is embedded as `cls`; `number` is a `u32`, every value the
decoder stores in it is kept below `2^32` by the wrapping arithmetic of
`read_tag`. -/
structure Tag where
  cls : TagClass
  constructed : Bool
  number : Nat
deriving DecidableEq, Repr

/-- src/der_parser.rs: `enum ASN1Error`. -/
inductive ASN1Error where
  | UnexpectedEOF
  | InvalidTag
  | InvalidLength
  | IndefiniteLengthNotAllowed
  | TrailingData
deriving DecidableEq, Repr

mutual
/-- src/der_parser.rs: `struct ASN1Object` (tag plus value; the borrowed
value slices become lists of byte values). -/
inductive ASN1Object where
  | mk (tag : Tag) (value : ASN1Value)
/-- src/der_parser.rs: `enum ASN1Value`. -/
inductive ASN1Value where
  | Primitive (bytes : List Nat)
  | Constructed (children : List ASN1Object)
end

/-- Field accessor for the embedded `ASN1Object.tag`. -/
def ASN1Object.tag : ASN1Object → Tag
  | .mk t _ => t

/-- Field accessor for the embedded `ASN1Object.value`. -/
def ASN1Object.value : ASN1Object → ASN1Value
  | .mk _ v => v

/-- src/der_parser.rs: `struct DerParser`, a borrowed input slice and a
cursor position. -/
structure DerParser where
  input : List Nat
  position : Nat
deriving DecidableEq, Repr

namespace DerParser

/-- src/der_parser.rs: `DerParser::new`. -/
def new (input : List Nat) : DerParser :=
  { input := input, position := 0 }

/-- src/der_parser.rs: `DerParser::peek`. -/
def peek (p : DerParser) : Option Nat :=
  p.input.get? p.position

/-- src/der_parser.rs: `DerParser::read_byte`; the mutation of `position`
becomes returning the advanced parser. -/
def read_byte (p : DerParser) : Option (Nat × DerParser) :=
  if h : p.position < p.input.length then
    some (p.input.get ⟨p.position, h⟩, { input := p.input, position := p.position + 1 })
  else
    none

/-- src/der_parser.rs: `DerParser::read_n`; the returned borrowed subslice
`input[position..position+n]` becomes `(input.drop position).take n`. -/
def read_n (p : DerParser) (n : Nat) : Option (List Nat × DerParser) :=
  if p.position + n ≤ p.input.length then
    some ((p.input.drop p.position).take n, { input := p.input, position := p.position + n })
  else
    none

/-- src/der_parser.rs: `DerParser::is_done`. -/
def is_done (p : DerParser) : Bool :=
  p.input.length ≤ p.position

/-- src/der_parser.rs: the `loop` inside `read_tag` that accumulates the
base-128 continuation bytes of a high tag number.  Each iteration performs
`number = (number << 7) | (byte & 0x7F)` on a `u32`: the shifted value has
zero in its low seven bits, so the bitwise or is addition, and the `u32`
wrap is the explicit `% 2^32`.  The loop consumes one byte per iteration,
embedded with fuel; every call site passes fuel larger than the number of
remaining input bytes, which the loop can never exceed. -/
def read_tag_number_loop : Nat → DerParser → Nat → Option (Nat × DerParser)
  | 0, _, _ => none
  | fuel + 1, p, number =>
    match read_byte p with
    | none => none
    | some (byte, p1) =>
      let number1 := (number * 128) % 2 ^ 32 + byte % 128
      if byte / 128 % 2 = 0 then
        some (number1, p1)
      else
        read_tag_number_loop fuel p1 number1

/-- src/der_parser.rs: `DerParser::read_tag`.  `first_byte >> 6` is
`/ 64 % 4` (equal on `u8` values), `& 0b0010_0000 != 0` is `/ 32 % 2 = 1`,
and `& 0b0001_1111` is `% 32`. -/
def read_tag (p : DerParser) : Option (Tag × DerParser) :=
  match read_byte p with
  | none => none
  | some (first_byte, p1) =>
    let cls : TagClass :=
      match first_byte / 64 % 4 with
      | 0 => TagClass.Universal
      | 1 => TagClass.Application
      | 2 => TagClass.ContextSpecific
      | _ => TagClass.Private
    let constructed : Bool := first_byte / 32 % 2 = 1
    let number := first_byte % 32
    if number = 31 then
      match read_tag_number_loop (p1.input.length + 1) p1 0 with
      | none => none
      | some (n, p2) => some ({ cls := cls, constructed := constructed, number := n }, p2)
    else
      some ({ cls := cls, constructed := constructed, number := number }, p1)

/-- src/der_parser.rs: the loop inside `read_length` that folds the long
form length bytes big-endian: `length = (length << 8) | b` on a `usize`;
the shifted value has zero low eight bits so the or is addition, and the
`usize` wrap is the explicit `% 2^64` (the bytes `b` are below 256, the
`% 256` makes the equation total on `Nat`). -/
def length_fold (bytes : List Nat) : Nat :=
  bytes.foldl (fun length b => (length * 256) % 2 ^ 64 + b % 256) 0

/-- src/der_parser.rs: `DerParser::read_length`.  `first & 0x80 == 0` is
`/ 128 % 2 = 0` and `first & 0x7F` is `% 128`; a zero count of long form
bytes (the indefinite form) yields `none`. -/
def read_length (p : DerParser) : Option (Nat × DerParser) :=
  match read_byte p with
  | none => none
  | some (first, p1) =>
    if first / 128 % 2 = 0 then
      some (first, p1)
    else
      let num_bytes := first % 128
      if num_bytes = 0 then
        none
      else
        match read_n p1 num_bytes with
        | none => none
        | some (bytes, p2) => some (length_fold bytes, p2)

/-- src/der_parser.rs: `DerParser::read_value`. -/
def read_value (p : DerParser) (length : Nat) : Option (List Nat × DerParser) :=
  read_n p length

mutual
/-- src/der_parser.rs: `DerParser::parse_tlv`, embedded with fuel for the
recursion into the value slice of a constructed tag.  Exhausted fuel
reports `InvalidTag`; the call sites always pass more fuel than the length
of the input, which the recursion can never exhaust, so this branch never
fires for the top level entry points. -/
def parse_tlv : Nat → DerParser → Except ASN1Error (ASN1Object × DerParser)
  | 0, _ => .error ASN1Error.InvalidTag
  | fuel + 1, p =>
    match read_tag p with
    | none => .error ASN1Error.InvalidTag
    | some (tag, p1) =>
      match read_length p1 with
      | none => .error ASN1Error.InvalidLength
      | some (length, p2) =>
        match read_value p2 length with
        | none => .error ASN1Error.UnexpectedEOF
        | some (value, p3) =>
          if tag.constructed then
            match parse_all_fuel fuel (DerParser.new value) with
            | .error e => .error e
            | .ok children => .ok (ASN1Object.mk tag (ASN1Value.Constructed children), p3)
          else
            .ok (ASN1Object.mk tag (ASN1Value.Primitive value), p3)

/-- src/der_parser.rs: the `while !self.is_done()` loop of
`DerParser::parse_all`, embedded with fuel. -/
def parse_all_fuel : Nat → DerParser → Except ASN1Error (List ASN1Object)
  | 0, _ => .error ASN1Error.InvalidTag
  | fuel + 1, p =>
    if is_done p then
      .ok []
    else
      match parse_tlv fuel p with
      | .error e => .error e
      | .ok (object, p1) =>
        match parse_all_fuel fuel p1 with
        | .error e => .error e
        | .ok rest => .ok (object :: rest)
end

/-- src/der_parser.rs: `DerParser::parse_all`.  The fuel
`remaining + 1` is sufficient: every `parse_tlv` consumes at least two
bytes before recursing into a strictly shorter value slice. -/
def parse_all (p : DerParser) : Except ASN1Error (List ASN1Object) :=
  parse_all_fuel (p.input.length + 1 - p.position) p

end DerParser

/-- The decoder contract of spec section 4.1: `decode_all(bytes)` runs
`DerParser::parse_all` on a fresh parser over the byte buffer, exactly as
every caller in the repository does. -/
def decode_all (bytes : List Nat) : Except ASN1Error (List ASN1Object) :=
  DerParser.parse_all (DerParser.new bytes)

mutual
/-- Modelled from the spec: `OwnedObject` is declared in src/der_parser.rs
by its users (src/tui/app.rs, src/tui/tree.rs, src/tui/ui.rs,
src/format.rs) but its definition is not under src/.  Spec section 3: the
owned variant of `Object = {tag, declared_length, value}` is structurally
identical, holding copied bytes; src/format.rs and src/tui/ui.rs read its
fields `tag`, `length` and `value`. -/
inductive OwnedObject where
  | mk (tag : Tag) (length : Nat) (value : OwnedValue)
/-- Modelled from the spec: `OwnedValue`, the owned variant of
`ASN1Value` (spec section 3), as matched by src/tui/tree.rs and
src/tui/ui.rs. -/
inductive OwnedValue where
  | Primitive (bytes : List Nat)
  | Constructed (children : List OwnedObject)
end

/-- Field accessor for the embedded `OwnedObject.tag`. -/
def OwnedObject.tag : OwnedObject → Tag
  | .mk t _ _ => t

/-- Field accessor for the embedded `OwnedObject.length`. -/
def OwnedObject.length : OwnedObject → Nat
  | .mk _ l _ => l

/-- Field accessor for the embedded `OwnedObject.value`. -/
def OwnedObject.value : OwnedObject → OwnedValue
  | .mk _ _ v => v

/-- src/src/tui/ui.rs: the `while n > 0 { stack.push(n & 0x7F); n >>= 7 }`
loop of `get_tag_length_value_bytes`, producing the base-128 groups of a
tag number least significant first.  Embedded with fuel; the value of the
counter never exceeds its starting value, so fuel `n` suffices for
starting value `n`. -/
def base128_stack : Nat → Nat → List Nat
  | 0, _ => []
  | fuel + 1, n =>
    if n = 0 then [] else n % 128 :: base128_stack fuel (n / 128)

/-- src/src/tui/ui.rs: the emission loop over `stack.iter().rev()` in
`get_tag_length_value_bytes`: every byte except the last emitted one gets
the continuation bit `0x80`; the groups are below 128, so `| 0x80` is
`+ 128`.  The argument is the already reversed stack. -/
def mark_continuations : List Nat → List Nat
  | [] => []
  | [b] => [b]
  | b :: rest => (128 + b) :: mark_continuations rest

/-- src/src/tui/ui.rs: the `while len > 0 { push(len & 0xFF); len >>= 8 }`
loop of `get_tag_length_value_bytes`, producing the base-256 bytes of a
length least significant first (the source reverses them before emission).
Embedded with fuel as `base128_stack`. -/
def base256_stack : Nat → Nat → List Nat
  | 0, _ => []
  | fuel + 1, n =>
    if n = 0 then [] else n % 256 :: base256_stack fuel (n / 256)

/-- src/src/tui/ui.rs: the `match tag.class` giving the top two bits of
the first tag byte in `get_tag_length_value_bytes` (before the shift). -/
def tag_class_value : TagClass → Nat
  | TagClass.Universal => 0
  | TagClass.Application => 1
  | TagClass.ContextSpecific => 2
  | TagClass.Private => 3

/-- src/src/tui/ui.rs: the `first_byte` of `get_tag_length_value_bytes`
without the low five tag bits: class bits shifted to the top two
positions (`<< 6` written `* 64`) plus the constructed bit `0x20`. -/
def tag_first_byte (tag : Tag) : Nat :=
  tag_class_value tag.cls * 64 + (if tag.constructed then 32 else 0)

/-- src/src/tui/ui.rs: the tag byte block of `get_tag_length_value_bytes`:
class bits shifted to the top two positions, the constructed bit `0x20`,
and either a low tag number below 31 or the `0b11111` marker followed by
the base-128 continuation bytes.  The bitwise ors combine disjoint bit
ranges and are written as additions. -/
def encode_tag_bytes (tag : Tag) : List Nat :=
  if tag.number < 31 then
    [tag_first_byte tag + tag.number]
  else
    (tag_first_byte tag + 31) ::
      mark_continuations (base128_stack tag.number tag.number).reverse

/-- src/src/tui/ui.rs: the length byte block of
`get_tag_length_value_bytes`: short form below 128, otherwise `0x80 | k`
followed by the `k` big-endian base-256 bytes.  The count `k` fits in
seven bits for every length below `2^1016`, far above the `usize` range of
the source, so `0x80 | k` is written `128 + k`. -/
def encode_length_bytes (length : Nat) : List Nat :=
  if length < 128 then
    [length]
  else
    let len_bytes := (base256_stack length length).reverse
    (128 + len_bytes.length) :: len_bytes

mutual
/-- src/src/tui/ui.rs: `get_tag_length_value_bytes`, returning the tag
bytes, length bytes and value bytes of one owned object; the value bytes
of a constructed object concatenate the full `t ++ l ++ v` encodings of
its children. -/
def get_tag_length_value_bytes (obj : OwnedObject) : List Nat × List Nat × List Nat :=
  match obj with
  | OwnedObject.mk tag length value =>
    let tag_bytes := encode_tag_bytes tag
    let length_bytes := encode_length_bytes length
    let value_bytes :=
      match value with
      | OwnedValue.Primitive bytes => bytes
      | OwnedValue.Constructed children => encode_children children
    (tag_bytes, length_bytes, value_bytes)

/-- src/src/tui/ui.rs: the `for child in children` loop inside
`get_tag_length_value_bytes` that extends the value bytes with each
child's tag, length and value bytes. -/
def encode_children : List OwnedObject → List Nat
  | [] => []
  | child :: rest =>
    (match get_tag_length_value_bytes child with
     | (t, l, v) => t ++ l ++ v) ++ encode_children rest
end

/-- The full encoding `tag bytes ++ length bytes ++ value bytes` of one
owned object, the unit concatenated by `get_tag_length_value_bytes` for
constructed values and by the hex modal of src/src/tui/ui.rs. -/
def encode_object (obj : OwnedObject) : List Nat :=
  match get_tag_length_value_bytes obj with
  | (t, l, v) => t ++ l ++ v

/-- Concatenated full encodings of a list of owned objects. -/
def encode_all (objects : List OwnedObject) : List Nat :=
  encode_children objects

mutual
/-- Modelled from the spec: `impl From<&ASN1Object> for OwnedObject` is
applied in src/tui/events.rs but not defined under src/.  Spec section 4.2:
`to_owned` is a pure recursive structural copy preserving child order and
copying the primitive payloads; the `length` field is the declared length,
which for a primitive is the payload length and for a constructed object
the total encoded length of its children (spec section 3: children whose
encoded lengths sum exactly to the declared length). -/
def to_owned : ASN1Object → OwnedObject
  | ASN1Object.mk tag (ASN1Value.Primitive bytes) =>
    OwnedObject.mk tag bytes.length (OwnedValue.Primitive bytes)
  | ASN1Object.mk tag (ASN1Value.Constructed children) =>
    let owned := to_owned_list children
    OwnedObject.mk tag (encode_all owned).length (OwnedValue.Constructed owned)

/-- `to_owned` mapped over a child list (the `.iter().map(..).collect()`
of src/tui/events.rs). -/
def to_owned_list : List ASN1Object → List OwnedObject
  | [] => []
  | o :: rest => to_owned o :: to_owned_list rest
end

mutual
/-- Well-formedness of an owned object with respect to the machine
widths of the source: the constructed flag agrees with the shape of the
value, the tag number fits the `u32` accumulator, the declared length is
the length of the payload (primitive) resp. of the concatenated child
encodings (constructed), and it fits the `usize` length arithmetic.
Every tree the decoder itself produces satisfies this. -/
inductive WFObj : OwnedObject → Prop where
  | prim : ∀ (tag : Tag) (bytes : List Nat),
      tag.constructed = false → tag.number < 2 ^ 32 → bytes.length < 2 ^ 64 →
      WFObj (OwnedObject.mk tag bytes.length (OwnedValue.Primitive bytes))
  | cons : ∀ (tag : Tag) (children : List OwnedObject),
      tag.constructed = true → tag.number < 2 ^ 32 →
      (encode_children children).length < 2 ^ 64 →
      WFList children →
      WFObj (OwnedObject.mk tag (encode_children children).length
        (OwnedValue.Constructed children))
/-- Well-formedness of a list of owned objects, pointwise `WFObj`. -/
inductive WFList : List OwnedObject → Prop where
  | nil : WFList []
  | cons : ∀ (o : OwnedObject) (os : List OwnedObject),
      WFObj o → WFList os → WFList (o :: os)
end

/-- src/src/tui/app.rs: `enum AppMode`. -/
inductive AppMode where
  | Input
  | View
deriving DecidableEq, Repr

/-- src/src/tui/app.rs: `struct App`.  The `HashSet<Vec<usize>>` of
collapsed paths is embedded as a `Finset (List Nat)`. -/
structure App where
  mode : AppMode
  input_buffer : String
  should_quit : Bool
  buffer : List Nat
  parsed_objects : List OwnedObject
  selected_path : List Nat
  collapsed_nodes : Finset (List Nat)
  show_help : Bool
  tree_scroll : Nat
  show_hex_modal : Bool
  copy_hex_to_clipboard : Bool

/-- src/src/tui/app.rs: `App::new`. -/
def App.new : App :=
  { mode := AppMode.Input
    input_buffer := ""
    should_quit := false
    buffer := []
    parsed_objects := []
    selected_path := []
    collapsed_nodes := ∅
    show_help := false
    tree_scroll := 0
    show_hex_modal := false
    copy_hex_to_clipboard := false }

/-- src/src/tui/tree.rs: the loop body of `get_object_by_path`: an
`Option` of the current object is stepped through one child index. -/
def path_step (current : Option OwnedObject) (idx : Nat) : Option OwnedObject :=
  match current with
  | some obj =>
    match obj.value with
    | OwnedValue.Constructed children => children.get? idx
    | _ => none
  | none => none

/-- src/src/tui/tree.rs: `get_object_by_path`: start at the top level
object at index `path[0]` (`None` when the path is empty), then step
through the child indices `path[1..]`. -/
def get_object_by_path (objects : List OwnedObject) (path : List Nat) : Option OwnedObject :=
  match path with
  | [] => none
  | i :: rest => rest.foldl path_step (objects.get? i)

/-- src/src/tui/tree.rs: the walk of `App::get_selected_object`: from a
given current object, step into the child at each successive index,
failing on an out of range index or a primitive node. -/
def selected_walk : OwnedObject → List Nat → Option OwnedObject
  | current, [] => some current
  | current, idx :: rest =>
    match current.value with
    | OwnedValue.Constructed children =>
      match children.get? idx with
      | some child => selected_walk child rest
      | none => none
    | _ => none

/-- src/src/tui/tree.rs: `App::get_selected_object`.  Note the source
starts at `self.parsed_objects.get(0)` and then iterates
`self.selected_path.iter().skip(1)`: the first path component is never
consulted. -/
def App.get_selected_object (app : App) : Option OwnedObject :=
  match app.parsed_objects.get? 0 with
  | none => none
  | some first => selected_walk first (app.selected_path.drop 1)

mutual
/-- src/src/tui/tree.rs: the pre-order collapse-aware traversal of
`tui_list_items` / `render_object_with_index`, reduced to the data the
state machine consumes: the list of rendered paths in render order.  A
collapsed constructed node is itself rendered but its children are
skipped.  Labels and styles of the rendered items are not modelled; they
influence neither the item count nor the selected index. -/
def render_paths (collapsed : Finset (List Nat)) : OwnedObject → List Nat → List (List Nat)
  | OwnedObject.mk _ _ (OwnedValue.Primitive _), path => [path]
  | OwnedObject.mk _ _ (OwnedValue.Constructed children), path =>
    path :: (if path ∈ collapsed then [] else render_paths_children collapsed children path 0)

/-- src/src/tui/tree.rs: the child loop of `render_object_with_index`,
rendering child `i` at `path ++ [i]`. -/
def render_paths_children (collapsed : Finset (List Nat)) :
    List OwnedObject → List Nat → Nat → List (List Nat)
  | [], _, _ => []
  | child :: rest, path, i =>
    render_paths collapsed child (path ++ [i]) ++ render_paths_children collapsed rest path (i + 1)
end

/-- src/src/tui/tree.rs: the top level loop of `tui_list_items` over the
top level objects, object `i` rendered at path `[i]`. -/
def render_paths_top (collapsed : Finset (List Nat)) :
    List OwnedObject → Nat → List (List Nat)
  | [], _ => []
  | obj :: rest, i =>
    render_paths collapsed obj [i] ++ render_paths_top collapsed rest (i + 1)

/-- src/src/tui/tree.rs: `tui_list_items`, reduced to the pair the state
machine consumes: the number of rendered items and `selected_idx`, which
the source sets to the running item count whenever the rendered path
equals the selected path (and which stays 0 when no rendered path
matches). -/
def tui_list_items (objects : List OwnedObject) (selected_path : List Nat)
    (collapsed : Finset (List Nat)) : Nat × Nat :=
  let paths := render_paths_top collapsed objects 0
  (paths.length, ((paths.findIdx? (fun q => q = selected_path)).getD 0))

/-- src/src/tui/tree.rs: `App::update_tree_scroll`. -/
def App.update_tree_scroll (app : App) (area_height : Nat) : App :=
  let selected_idx := (tui_list_items app.parsed_objects app.selected_path app.collapsed_nodes).2
  if selected_idx < app.tree_scroll then
    { app with tree_scroll := selected_idx }
  else if app.tree_scroll + area_height ≤ selected_idx then
    { app with tree_scroll := selected_idx + 1 - area_height }
  else
    app

/-- src/src/tui/tree.rs: the `if let Some(last) = p.last_mut() { *last += 1 }`
of `App::move_selection_down`, incrementing the last component of a path. -/
def increment_last : List Nat → List Nat
  | [] => []
  | [i] => [i + 1]
  | i :: rest => i :: increment_last rest

/-- src/src/tui/tree.rs: the `while !path.is_empty()` loop of
`App::move_selection_down` that looks for the next sibling at the current
depth and otherwise pops one level.  Embedded by recursion on the
reversed path so that popping the last component is structural; the
returned value is the new selected path, `none` when the loop exhausts the
path without finding a sibling. -/
def advance_loop (objects : List OwnedObject) : List Nat → Option (List Nat)
  | [] => none
  | last :: rev_rest =>
    let path := (last :: rev_rest).reverse
    let check_path := increment_last path
    match get_object_by_path objects check_path with
    | some _ => some check_path
    | none => advance_loop objects rev_rest

/-- src/src/tui/tree.rs: `App::move_selection_down`. -/
def App.move_selection_down (app : App) (area_height : Nat) : App :=
  let can_descend : Bool :=
    match app.get_selected_object with
    | some o =>
      match o.value with
      | OwnedValue.Constructed children =>
        !children.isEmpty && !(app.selected_path ∈ app.collapsed_nodes)
      | _ => false
    | none => false
  if can_descend then
    App.update_tree_scroll { app with selected_path := app.selected_path ++ [0] } area_height
  else
    match advance_loop app.parsed_objects app.selected_path.reverse with
    | some path => App.update_tree_scroll { app with selected_path := path } area_height
    | none => App.update_tree_scroll app area_height

/-- src/src/tui/tree.rs: the descent loop of `App::move_selection_up`:
after stepping to the previous sibling, repeatedly push the index of the
last child while the node the new path resolves to (through
`get_selected_object`) is constructed, non-empty and not collapsed.  The
source re-resolves the path each iteration; since resolving `path ++ [k]`
steps to child `k` of the resolution of `path`, the loop is the structural
descent from the currently resolved object. -/
def descend_last_visible (collapsed : Finset (List Nat)) :
    OwnedObject → List Nat → List Nat
  | OwnedObject.mk _ _ (OwnedValue.Primitive _), path => path
  | OwnedObject.mk _ _ (OwnedValue.Constructed []), path => path
  | OwnedObject.mk _ _ (OwnedValue.Constructed (c :: cs)), path =>
    if path ∈ collapsed then path
    else
      descend_last_visible collapsed ((c :: cs).getLast (by simp))
        (path ++ [(c :: cs).length - 1])
termination_by obj _ => sizeOf obj
decreasing_by
  have h1 : (c :: cs).getLast (by simp) ∈ c :: cs := List.getLast_mem (by simp)
  have h2 := List.sizeOf_lt_of_mem h1
  simp only [OwnedObject.mk.sizeOf_spec, OwnedValue.Constructed.sizeOf_spec]
  omega

/-- src/src/tui/tree.rs: the `*current_idx -= 1` on
`selected_path.last_mut()` of `App::move_selection_up`. -/
def decrement_last : List Nat → List Nat
  | [] => []
  | [i] => [i - 1]
  | i :: rest => i :: decrement_last rest

/-- src/src/tui/tree.rs: `App::move_selection_up`.  An empty selected
path returns at once (before the scroll update); a positive last index is
decremented and the descent loop runs from the node the new path resolves
to; a zero last index on a path of several components pops it. -/
def App.move_selection_up (app : App) (area_height : Nat) : App :=
  if app.selected_path.isEmpty then
    app
  else if 0 < (app.selected_path.getLast?).getD 0 then
    let app1 := { app with selected_path := decrement_last app.selected_path }
    let app2 :=
      match app1.get_selected_object with
      | some obj =>
        { app1 with
          selected_path := descend_last_visible app1.collapsed_nodes obj app1.selected_path }
      | none => app1
    app2.update_tree_scroll area_height
  else if 1 < app.selected_path.length then
    App.update_tree_scroll { app with selected_path := app.selected_path.dropLast } area_height
  else
    App.update_tree_scroll app area_height

/-- src/src/tui/tree.rs: `App::toggle_collapse`: when the selected node
(through `get_selected_object`) is constructed, remove the selected path
from the collapsed set if present, otherwise insert it; no change
otherwise. -/
def App.toggle_collapse (app : App) : App :=
  let is_constructed : Bool :=
    match app.get_selected_object with
    | some obj =>
      match obj.value with
      | OwnedValue.Constructed _ => true
      | _ => false
    | none => false
  if is_constructed then
    if app.selected_path ∈ app.collapsed_nodes then
      { app with collapsed_nodes := app.collapsed_nodes.erase app.selected_path }
    else
      { app with collapsed_nodes := insert app.selected_path app.collapsed_nodes }
  else
    app

/-- src/src/tui/events.rs: the crossterm `KeyCode` constructors the
handler matches on; every other key is `Other`. -/
inductive KeyCode where
  | Char (c : Char)
  | Esc
  | Tab
  | Backspace
  | Enter
  | Other
deriving DecidableEq, Repr

/-- src/src/tui/events.rs: the only modifier the handler consults is
CONTROL. -/
structure KeyModifiers where
  control : Bool
deriving DecidableEq, Repr

/-- src/src/tui/events.rs: a crossterm key event, reduced to the fields
the handler reads. -/
structure KeyEvent where
  code : KeyCode
  modifiers : KeyModifiers
deriving DecidableEq, Repr

/-- The `str::lines` splitting used by `try_decode_input`: split at
newlines, a final line ending producing no trailing empty line (carriage
returns before a newline are stripped afterwards). -/
def split_lines : List Char → List (List Char)
  | [] => []
  | c :: rest =>
    if c = '\n' then
      [] :: split_lines rest
    else
      match split_lines rest with
      | [] => [[c]]
      | l :: ls => (c :: l) :: ls

/-- Strip one trailing carriage return, as `str::lines` does for CRLF
endings. -/
def strip_cr (l : List Char) : List Char :=
  if l.getLast? = some '\r' then l.dropLast else l

/-- One hexadecimal digit, as accepted by the `hex` crate (both cases). -/
def hex_digit (c : Char) : Option Nat :=
  if '0' ≤ c ∧ c ≤ '9' then some (c.toNat - '0'.toNat)
  else if 'a' ≤ c ∧ c ≤ 'f' then some (c.toNat - 'a'.toNat + 10)
  else if 'A' ≤ c ∧ c ≤ 'F' then some (c.toNat - 'A'.toNat + 10)
  else none

/-- `hex::decode`: an even number of hex digits, two digits per byte;
anything else fails. -/
def hex_decode : List Char → Option (List Nat)
  | [] => some []
  | [_] => none
  | c1 :: c2 :: rest =>
    match hex_digit c1, hex_digit c2, hex_decode rest with
    | some hi, some lo, some bs => some ((hi * 16 + lo) :: bs)
    | _, _, _ => none

/-- One digit of the standard base64 alphabet. -/
def b64_digit (c : Char) : Option Nat :=
  if 'A' ≤ c ∧ c ≤ 'Z' then some (c.toNat - 'A'.toNat)
  else if 'a' ≤ c ∧ c ≤ 'z' then some (c.toNat - 'a'.toNat + 26)
  else if '0' ≤ c ∧ c ≤ '9' then some (c.toNat - '0'.toNat + 52)
  else if c = '+' then some 62
  else if c = '/' then some 63
  else none

/-- `base64::engine::general_purpose::STANDARD.decode`: groups of four
symbols, the last group optionally padded with one or two `=`; anything
else fails. -/
def base64_decode : List Char → Option (List Nat)
  | [] => some []
  | c1 :: c2 :: c3 :: c4 :: rest =>
    (match b64_digit c1, b64_digit c2 with
     | some d1, some d2 =>
       if c3 = '=' then
         if c4 = '=' ∧ rest = [] then some [d1 * 4 + d2 / 16] else none
       else
         (match b64_digit c3 with
          | some d3 =>
            if c4 = '=' then
              if rest = [] then some [d1 * 4 + d2 / 16, d2 % 16 * 16 + d3 / 4] else none
            else
              (match b64_digit c4, base64_decode rest with
               | some d4, some bs =>
                 some ((d1 * 4 + d2 / 16) :: (d2 % 16 * 16 + d3 / 4) :: (d3 % 4 * 64 + d4) :: bs)
               | _, _ => none)
          | none => none)
     | _, _ => none)
  | _ => none

/-- Modelled from the spec: `try_decode_input` is imported from
`crate::der_parser` in src/tui/events.rs but is not defined under src/;
src/tui_app.rs carries the identical helper.  It drops the lines starting
with five dashes (PEM boundaries), joins the rest, and tries hex decoding
first, base64 decoding second (spec section 6).  The external `hex` and
`base64` crates are modelled by their documented strict behaviour. -/
def try_decode_input (input : String) : Option (List Nat) :=
  let cleaned :=
    ((split_lines input.data).map strip_cr).filter
      (fun l => !((['-', '-', '-', '-', '-'] : List Char).isPrefixOf l)) |>.flatten
  match hex_decode cleaned with
  | some bytes => some bytes
  | none => base64_decode cleaned

/-- src/src/tui/events.rs: the `Ctrl-R` arm of `App::handle_input`: decode
the text of the input buffer to bytes; on success **first replace the raw
byte buffer**, then run the DER parse over it; install the owned tree,
reset the selection to `[0]` and switch to view mode when the parse
succeeds, and otherwise only log (the collapsed set is never touched on
either outcome). -/
def handle_decode_command (app : App) : App :=
  match try_decode_input app.input_buffer with
  | none => app
  | some decoded =>
    let app1 := { app with buffer := decoded }
    match DerParser.parse_all (DerParser.new app1.buffer) with
    | .ok borrowed_objs =>
      { app1 with
        parsed_objects := to_owned_list borrowed_objs
        selected_path := [0]
        mode := AppMode.View }
    | .error _ => app1

/-- src/src/tui/events.rs: `App::handle_input`.  Guard order follows the
source: an open help modal swallows the key; inside the hex modal Ctrl-C
sets the copy flag and returns; every other key clears the copy flag and
falls through to the mode match, whose arms are tested in source order. -/
def App.handle_input (app : App) (key : KeyEvent) : App :=
  if app.show_help then
    { app with show_help := false }
  else if app.show_hex_modal ∧ key.code = KeyCode.Char 'c' ∧ key.modifiers.control then
    { app with copy_hex_to_clipboard := true }
  else
    let app := { app with copy_hex_to_clipboard := false }
    match app.mode with
    | AppMode.Input =>
      if key.code = KeyCode.Char '?' then { app with show_help := true }
      else if key.code = KeyCode.Char 'u' ∧ key.modifiers.control then
        { app with input_buffer := "" }
      else if key.code = KeyCode.Esc then { app with mode := AppMode.View }
      else if key.code = KeyCode.Tab then { app with mode := AppMode.View }
      else if key.code = KeyCode.Char 'r' ∧ key.modifiers.control then
        handle_decode_command app
      else if key.code = KeyCode.Backspace then
        { app with input_buffer := app.input_buffer.dropRight 1 }
      else if key.code = KeyCode.Enter then
        { app with input_buffer := app.input_buffer.push '\n' }
      else
        match key.code with
        | KeyCode.Char c => { app with input_buffer := app.input_buffer.push c }
        | _ => app
    | AppMode.View =>
      if key.code = KeyCode.Char 'q' then { app with should_quit := true }
      else if key.code = KeyCode.Char 'i' then { app with mode := AppMode.Input }
      else if key.code = KeyCode.Tab then { app with mode := AppMode.Input }
      else if key.code = KeyCode.Char 'h' then app.toggle_collapse
      else if key.code = KeyCode.Char 'l' then app.toggle_collapse
      else if key.code = KeyCode.Char 'j' then app.move_selection_down 10
      else if key.code = KeyCode.Char 'k' then app.move_selection_up 10
      else if key.code = KeyCode.Char 'x' then { app with show_hex_modal := true }
      else if key.code = KeyCode.Esc then { app with show_hex_modal := false }
      else if key.code = KeyCode.Char '?' then { app with show_help := true }
      else app

/-- Test fixture: two top level primitive INTEGER objects, carrying the
bytes `[1]` and `[2]`. -/
def two_ints : List OwnedObject :=
  [OwnedObject.mk ⟨TagClass.Universal, false, 2⟩ 1 (OwnedValue.Primitive [1]),
   OwnedObject.mk ⟨TagClass.Universal, false, 2⟩ 1 (OwnedValue.Primitive [2])]

/-- Test fixture: a SEQUENCE holding one INTEGER, followed by a top level
primitive INTEGER. -/
def seq_and_int : List OwnedObject :=
  [OwnedObject.mk ⟨TagClass.Universal, true, 16⟩ 3 (OwnedValue.Constructed
     [OwnedObject.mk ⟨TagClass.Universal, false, 2⟩ 1 (OwnedValue.Primitive [7])]),
   OwnedObject.mk ⟨TagClass.Universal, false, 2⟩ 1 (OwnedValue.Primitive [9])]

/-- Test fixture: a viewing state over the given tree with the given
selection, no collapses and default flags. -/
def view_app (objects : List OwnedObject) (path : List Nat) : App :=
  { App.new with mode := AppMode.View, parsed_objects := objects, selected_path := path }

/-- Test fixture: the decode command key, Ctrl-R. -/
def ctrl_r : KeyEvent :=
  { code := KeyCode.Char 'r', modifiers := { control := true } }

/-- Test fixture: an input mode state holding the text `80` (which hex
decodes to the single byte `0x80`, a buffer whose DER parse fails) over a
previously installed byte buffer `[9]`. -/
def c3_app : App :=
  { App.new with mode := AppMode.Input, input_buffer := "80", buffer := [9] }

/-- Test fixture: an input mode state holding the text `0500` (which hex
decodes to `[5, 0]`, a NULL object, parsing successfully) with a non empty
collapsed set. -/
def c4_app : App :=
  { App.new with mode := AppMode.Input, input_buffer := "0500", collapsed_nodes := {[0]} }

example : decode_all [2, 1, 5] =
    .ok [ASN1Object.mk ⟨TagClass.Universal, false, 2⟩ (ASN1Value.Primitive [5])] := by
  rfl

example : decode_all [48, 6, 2, 1, 1, 2, 1, 2] =
    .ok [ASN1Object.mk ⟨TagClass.Universal, true, 16⟩ (ASN1Value.Constructed
      [ASN1Object.mk ⟨TagClass.Universal, false, 2⟩ (ASN1Value.Primitive [1]),
       ASN1Object.mk ⟨TagClass.Universal, false, 2⟩ (ASN1Value.Primitive [2])])] := by
  rfl

example : decode_all [31, 133, 1, 0] =
    .ok [ASN1Object.mk ⟨TagClass.Universal, false, 641⟩ (ASN1Value.Primitive [])] := by
  rfl

example : decode_all [2, 128] = .error ASN1Error.InvalidLength := by rfl

/-- C2: the selection resolution of the source, `get_selected_object`,
evaluated on a tree with two top level objects and selected path `[1]`:
it answers the object at index 0 (value bytes `[1]`), while
`get_object_by_path` — and the specified `resolve` — answer the object at
index `path[0]` (value bytes `[2]`).  The claim that selection resolution
starts at top level object `path[0]` fails on this input. -/
theorem claim_C2_selected_object_ignores_first_index :
    (view_app two_ints [1]).get_selected_object =
      some (OwnedObject.mk ⟨TagClass.Universal, false, 2⟩ 1 (OwnedValue.Primitive [1])) ∧
    get_object_by_path two_ints [1] =
      some (OwnedObject.mk ⟨TagClass.Universal, false, 2⟩ 1 (OwnedValue.Primitive [2])) ∧
    (view_app two_ints [1]).get_selected_object ≠ get_object_by_path two_ints [1] := by
  refine ⟨rfl, rfl, ?_⟩
  intro h
  rw [show (view_app two_ints [1]).get_selected_object =
      some (OwnedObject.mk ⟨TagClass.Universal, false, 2⟩ 1 (OwnedValue.Primitive [1])) from rfl,
    show get_object_by_path two_ints [1] =
      some (OwnedObject.mk ⟨TagClass.Universal, false, 2⟩ 1 (OwnedValue.Primitive [2])) from rfl]
      at h
  simp at h

/-- C5: `toggle_collapse` on the two object tree `seq_and_int` with
selected path `[1]`: the path `[1]` resolves to a primitive INTEGER, yet
the toggle inserts it into the collapsed set, because the constructed
check consults `get_selected_object`, which inspects top level object 0
(the SEQUENCE).  The claimed invariant — the collapse set only holds
paths resolving to constructed nodes, and toggling a primitive selection
is a no-op — fails on this input. -/
theorem claim_C5_toggle_collapse_primitive_path_inserted :
    ((view_app seq_and_int [1]).toggle_collapse).collapsed_nodes = {[1]} ∧
    get_object_by_path seq_and_int [1] =
      some (OwnedObject.mk ⟨TagClass.Universal, false, 2⟩ 1 (OwnedValue.Primitive [9])) := by
  exact ⟨rfl, rfl⟩

/-- C8: `move_selection_down` on `seq_and_int` with selected path `[1]`:
the selected node is the primitive INTEGER at `[1]`, yet the move pushes
child index 0 — the descend test consults `get_selected_object`, which
inspects top level object 0 — leaving the dangling selected path
`[1, 0]`, which resolves to nothing.  The claim that child index 0 is
entered exactly when the selected node is constructed, non empty and not
collapsed fails on this input. -/
theorem claim_C8_descends_from_primitive_selection :
    ((view_app seq_and_int [1]).move_selection_down 10).selected_path = [1, 0] ∧
    get_object_by_path seq_and_int [1, 0] = none := by
  exact ⟨rfl, rfl⟩

/-- C6: length decoding on the three specified inputs: short form `0x0A`
is 10, long form `0x82 0x01 0xF4` is 500, and the lone indefinite form
byte `0x80` is rejected, surfacing from `parse_tlv` as `InvalidLength`. -/
theorem claim_C6_length_decoding_cases :
    DerParser.read_length (DerParser.new [0x0A]) = some (10, ⟨[0x0A], 1⟩) ∧
    DerParser.read_length (DerParser.new [0x82, 0x01, 0xF4]) =
      some (500, ⟨[0x82, 0x01, 0xF4], 3⟩) ∧
    DerParser.read_length (DerParser.new [0x80]) = none ∧
    decode_all [0x02, 0x80] = Except.error ASN1Error.InvalidLength := by
  exact ⟨rfl, rfl, rfl, rfl⟩

/-- C9: `decode_all` is a pure function of the byte buffer: two runs on
identical byte input yield the identical tree or the identical error.
Determinism and absence of side effects hold by construction in the
embedding, since the source decoder touches no state outside the parser
it owns. -/
theorem claim_C9_decode_all_deterministic (s t : List Nat) (h : s = t) :
    decode_all s = decode_all t := by
  rw [h]

/-- Witness for C9 at a concrete buffer. -/
theorem claim_C9_decode_all_deterministic_witness :
    decode_all [2, 1, 5] = decode_all [2, 1, 5] :=
  claim_C9_decode_all_deterministic [2, 1, 5] [2, 1, 5] rfl

/-- C10: the decoder accepts non minimal long form lengths: a length of 5
written `0x81 0x05` decodes to the same single INTEGER object as the
short form, for every choice of the five value bytes; and the empty
buffer decodes to the empty object sequence. -/
theorem claim_C10_nonminimal_length_and_empty_buffer
    (b1 b2 b3 b4 b5 : Nat) :
    decode_all [0x02, 0x81, 0x05, b1, b2, b3, b4, b5] =
      decode_all [0x02, 0x05, b1, b2, b3, b4, b5] ∧
    decode_all [0x02, 0x81, 0x05, b1, b2, b3, b4, b5] =
      Except.ok [ASN1Object.mk ⟨TagClass.Universal, false, 2⟩
        (ASN1Value.Primitive [b1, b2, b3, b4, b5])] ∧
    decode_all [] = Except.ok [] := by
  refine ⟨?_, ?_, rfl⟩ <;>
    simp [decode_all, DerParser.parse_all, DerParser.parse_all_fuel, DerParser.parse_tlv,
      DerParser.read_tag, DerParser.read_length, DerParser.read_byte, DerParser.read_n,
      DerParser.read_value, DerParser.new, DerParser.is_done, DerParser.length_fold]

/-- Witness for C10 at the value bytes `1 2 3 4 5`. -/
theorem claim_C10_nonminimal_length_and_empty_buffer_witness :
    decode_all [0x02, 0x81, 0x05, 1, 2, 3, 4, 5] =
      decode_all [0x02, 0x05, 1, 2, 3, 4, 5] ∧
    decode_all [0x02, 0x81, 0x05, 1, 2, 3, 4, 5] =
      Except.ok [ASN1Object.mk ⟨TagClass.Universal, false, 2⟩
        (ASN1Value.Primitive [1, 2, 3, 4, 5])] ∧
    decode_all [] = Except.ok [] :=
  claim_C10_nonminimal_length_and_empty_buffer 1 2 3 4 5

/-- C1 counterexample: the SEQUENCE `30 04 02 81 01 07` carries its
INTEGER child with a non minimal long form length.  The child is decoded
from the declared length value slice `02 81 01 07`, but re-encoding it
through `get_tag_length_value_bytes` yields the minimal `02 01 07`, which
does not reconstruct the slice: the claimed re-encoding identity fails on
this input. -/
theorem claim_C1_counterexample :
    decode_all [0x30, 0x04, 0x02, 0x81, 0x01, 0x07] =
      Except.ok [ASN1Object.mk ⟨TagClass.Universal, true, 16⟩ (ASN1Value.Constructed
        [ASN1Object.mk ⟨TagClass.Universal, false, 2⟩ (ASN1Value.Primitive [7])])] ∧
    ([0x30, 0x04, 0x02, 0x81, 0x01, 0x07] : List Nat).drop 2 = [0x02, 0x81, 0x01, 0x07] ∧
    encode_all (to_owned_list
      [ASN1Object.mk ⟨TagClass.Universal, false, 2⟩ (ASN1Value.Primitive [7])]) =
      [0x02, 0x01, 0x07] ∧
    ([0x02, 0x01, 0x07] : List Nat) ≠ [0x02, 0x81, 0x01, 0x07] := by
  exact ⟨rfl, rfl, rfl, by decide⟩

/-- C7 counterexample: the tag `1F 90 80 80 80 00` encodes the tag number
`2^32` in base-128; the accumulating `u32` wraps it to 0 and the decode
succeeds with tag number 0 instead of reporting an error. -/
theorem claim_C7_counterexample :
    decode_all [0x1F, 0x90, 0x80, 0x80, 0x80, 0x00, 0x00] =
      Except.ok [ASN1Object.mk ⟨TagClass.Universal, false, 0⟩ (ASN1Value.Primitive [])] := by
  rfl

/-- C3 counterexample: handling the decode command on the fixture state
`c3_app` — text `80`, which hex decodes to `[0x80]`, a buffer whose DER
parse fails with `InvalidLength` — replaces the previously stored raw
byte buffer `[9]` with `[0x80]`: the source assigns `self.buffer` before
running the parse.  The claim that the stored raw byte buffer is
unchanged on a failed decode fails on this input. -/
theorem claim_C3_counterexample :
    (c3_app.handle_input ctrl_r).buffer = [0x80] ∧
    c3_app.buffer = [9] ∧
    (c3_app.handle_input ctrl_r).parsed_objects = c3_app.parsed_objects ∧
    (c3_app.handle_input ctrl_r).selected_path = c3_app.selected_path ∧
    (c3_app.handle_input ctrl_r).collapsed_nodes = c3_app.collapsed_nodes := by
  exact ⟨rfl, rfl, rfl, rfl, rfl⟩

/-- C3 as amended: on the decode command, when the text decode fails the
whole state is unchanged (except the cleared clipboard flag), and when
the text decode succeeds but the DER parse fails, the tree, the
selection and the collapse set are unchanged while the raw byte buffer
has already been replaced by the newly decoded bytes. -/
theorem claim_C3_amended (app : App) (hh : app.show_help = false)
    (hm : app.mode = AppMode.Input) :
    (try_decode_input app.input_buffer = none →
      app.handle_input ctrl_r = { app with copy_hex_to_clipboard := false }) ∧
    (∀ bs e, try_decode_input app.input_buffer = some bs →
      decode_all bs = Except.error e →
      app.handle_input ctrl_r =
        { app with copy_hex_to_clipboard := false, buffer := bs }) := by
  constructor
  · intro h
    simp [App.handle_input, hh, hm, ctrl_r, handle_decode_command, h]
  · intro bs e h1 h2
    simp only [decode_all] at h2
    simp [App.handle_input, hh, hm, ctrl_r, handle_decode_command, h1, h2]

/-- Witness for C3 as amended, at the fixture state `c3_app`. -/
theorem claim_C3_amended_witness :
    c3_app.handle_input ctrl_r = { c3_app with copy_hex_to_clipboard := false, buffer := [0x80] } :=
  (claim_C3_amended c3_app rfl rfl).2 [0x80] ASN1Error.InvalidLength rfl rfl

/-- C4 counterexample: handling the decode command on the fixture state
`c4_app` — text `0500`, a NULL object that parses successfully — installs
the new tree and resets the selection, but leaves the previously
collapsed path `[0]` in the collapse set instead of clearing it: the
source never touches `collapsed_nodes`.  The claim that a successful
decode resets the collapse set to empty fails on this input. -/
theorem claim_C4_counterexample :
    (c4_app.handle_input ctrl_r).parsed_objects =
      [OwnedObject.mk ⟨TagClass.Universal, false, 5⟩ 0 (OwnedValue.Primitive [])] ∧
    (c4_app.handle_input ctrl_r).selected_path = [0] ∧
    (c4_app.handle_input ctrl_r).collapsed_nodes = {[0]} ∧
    ({[0]} : Finset (List Nat)) ≠ (∅ : Finset (List Nat)) := by
  exact ⟨rfl, rfl, rfl, by decide⟩

/-- C4 as amended: on the decode command, a successful decode installs
the owned tree built from the parsed objects, resets the selection to
`[0]`, stores the decoded bytes and switches to view mode, together —
but leaves the collapse set unchanged rather than clearing it. -/
theorem claim_C4_amended (app : App) (hh : app.show_help = false)
    (hm : app.mode = AppMode.Input) (bs : List Nat) (objs : List ASN1Object)
    (h1 : try_decode_input app.input_buffer = some bs)
    (h2 : decode_all bs = Except.ok objs) :
    app.handle_input ctrl_r =
      { app with
        copy_hex_to_clipboard := false
        buffer := bs
        parsed_objects := to_owned_list objs
        selected_path := [0]
        mode := AppMode.View } := by
  simp only [decode_all] at h2
  simp [App.handle_input, hh, hm, ctrl_r, handle_decode_command, h1, h2]

/-- Witness for C4 as amended, at the fixture state `c4_app`. -/
theorem claim_C4_amended_witness :
    c4_app.handle_input ctrl_r =
      { c4_app with
        copy_hex_to_clipboard := false
        buffer := [5, 0]
        parsed_objects := to_owned_list
          [ASN1Object.mk ⟨TagClass.Universal, false, 5⟩ (ASN1Value.Primitive [])]
        selected_path := [0]
        mode := AppMode.View } :=
  claim_C4_amended c4_app rfl rfl [5, 0]
    [ASN1Object.mk ⟨TagClass.Universal, false, 5⟩ (ASN1Value.Primitive [])] rfl rfl

/-- The accumulator of the base-128 tag number loop always stays below
`2^32`: the wrap `(number * 128) % 2^32` leaves a multiple of 128 below
`2^32`, to which a value below 128 is added. -/
theorem read_tag_number_loop_lt {fuel : Nat} :
    ∀ {p : DerParser} {acc n : Nat} {p1 : DerParser},
      DerParser.read_tag_number_loop fuel p acc = some (n, p1) → n < 2 ^ 32 := by
  induction fuel with
  | zero =>
    intro p acc n p1 h
    simp [DerParser.read_tag_number_loop] at h
  | succ f ih =>
    intro p acc n p1 h
    simp only [DerParser.read_tag_number_loop] at h
    cases hb : DerParser.read_byte p with
    | none => rw [hb] at h; exact absurd h (by simp)
    | some bp =>
      obtain ⟨byte, p2⟩ := bp
      rw [hb] at h
      simp only at h
      by_cases hbit : byte / 128 % 2 = 0
      · rw [if_pos hbit, Option.some.injEq, Prod.mk.injEq] at h
        obtain ⟨h1, -⟩ := h
        subst h1
        have hmod : (acc * 128) % 2 ^ 32 = 128 * (acc % 2 ^ 25) := by
          rw [Nat.mul_comm acc 128, show (2 : Nat) ^ 32 = 128 * 2 ^ 25 from by norm_num,
            Nat.mul_mod_mul_left]
        have h2 : acc % 2 ^ 25 < 2 ^ 25 := Nat.mod_lt acc (by norm_num)
        have h3 : byte % 128 < 128 := Nat.mod_lt byte (by norm_num)
        rw [hmod]
        norm_num at h2 ⊢
        omega
      · rw [if_neg hbit] at h
        exact ih h

/-- C7 as amended: the decoder does not report an explicit error on a
base-128 tag number sequence exceeding the 32 bit width; instead the
accumulation wraps modulo `2^32`, so every tag produced by `read_tag`
carries a number below `2^32` and oversized sequences silently decode to
the wrapped value (see the counterexample for a concrete wrap). -/
theorem claim_C7_amended (p : DerParser) (t : Tag) (p1 : DerParser)
    (h : DerParser.read_tag p = some (t, p1)) : t.number < 2 ^ 32 := by
  simp only [DerParser.read_tag] at h
  cases hb : DerParser.read_byte p with
  | none => rw [hb] at h; exact absurd h (by simp)
  | some bp =>
    obtain ⟨first_byte, p2⟩ := bp
    rw [hb] at h
    simp only at h
    by_cases h31 : first_byte % 32 = 31
    · rw [if_pos h31] at h
      cases hloop : DerParser.read_tag_number_loop (p2.input.length + 1) p2 0 with
      | none => rw [hloop] at h; exact absurd h (by simp)
      | some np =>
        obtain ⟨n, p3⟩ := np
        rw [hloop] at h
        rw [Option.some.injEq, Prod.mk.injEq] at h
        obtain ⟨h1, -⟩ := h
        subst h1
        exact read_tag_number_loop_lt hloop
    · rw [if_neg h31, Option.some.injEq, Prod.mk.injEq] at h
      obtain ⟨h1, -⟩ := h
      subst h1
      have h2 : first_byte % 32 < 32 := Nat.mod_lt first_byte (by norm_num)
      calc first_byte % 32 < 32 := h2
        _ < 2 ^ 32 := by norm_num

/-- Witness for C7 as amended at the SEQUENCE tag byte `0x30`. -/
theorem claim_C7_amended_witness :
    ({ cls := TagClass.Universal, constructed := true, number := 16 } : Tag).number < 2 ^ 32 :=
  claim_C7_amended (DerParser.new [0x30])
    { cls := TagClass.Universal, constructed := true, number := 16 }
    { input := [0x30], position := 1 } rfl

/-! Step lemmas for the positional reads, keyed on the suffix
`p.input.drop p.position` of the input at the cursor. -/

/-- Dropping one more element after a known suffix. -/
theorem drop_succ_of_drop_cons {l : List Nat} {k b : Nat} {rest : List Nat}
    (h : l.drop k = b :: rest) : l.drop (k + 1) = rest := by
  rw [← List.drop_drop, h]
  rfl

/-- Dropping a known list prefix after a known suffix. -/
theorem drop_add_of_drop_append {l : List Nat} {k : Nat} {xs rest : List Nat}
    (h : l.drop k = xs ++ rest) : l.drop (k + xs.length) = rest := by
  rw [← List.drop_drop, h, List.drop_left]

/-- `read_byte` succeeds on a non-empty suffix and yields its head. -/
theorem read_byte_of_drop {p : DerParser} {b : Nat} {rest : List Nat}
    (h : p.input.drop p.position = b :: rest) :
    DerParser.read_byte p = some (b, { input := p.input, position := p.position + 1 }) := by
  have hlen := congrArg List.length h
  rw [List.length_drop] at hlen
  simp only [List.length_cons] at hlen
  have hlt : p.position < p.input.length := by omega
  have hget : p.input.get ⟨p.position, hlt⟩ = b := by
    have hb0 : 0 < (p.input.drop p.position).length := by rw [h]; simp
    have h0 : (p.input.drop p.position).get ⟨0, hb0⟩ = b := by simp [h]
    rw [List.get_eq_getElem] at h0
    rw [List.getElem_drop] at h0
    rw [List.get_eq_getElem]
    simpa using h0
  unfold DerParser.read_byte
  rw [dif_pos hlt, hget]

/-- `read_n` succeeds when the suffix starts with a list of the requested
length and yields exactly it. -/
theorem read_n_of_drop {p : DerParser} {n : Nat} {xs rest : List Nat}
    (hpos : p.position ≤ p.input.length)
    (h : p.input.drop p.position = xs ++ rest) (hn : xs.length = n) :
    DerParser.read_n p n = some (xs, { input := p.input, position := p.position + n }) := by
  have hlen := congrArg List.length h
  rw [List.length_drop, List.length_append] at hlen
  have hle : p.position + n ≤ p.input.length := by omega
  unfold DerParser.read_n
  rw [if_pos hle, h, ← hn, List.take_left]

/-- The parser is not done while the suffix is non-empty. -/
theorem is_done_false_of_drop {p : DerParser} {b : Nat} {rest : List Nat}
    (h : p.input.drop p.position = b :: rest) : DerParser.is_done p = false := by
  have hlen := congrArg List.length h
  rw [List.length_drop] at hlen
  simp only [List.length_cons] at hlen
  simp only [DerParser.is_done, decide_eq_false_iff_not, not_le]
  omega

/-- The parser is done when the suffix is empty. -/
theorem is_done_true_of_drop {p : DerParser} (h : p.input.drop p.position = []) :
    DerParser.is_done p = true := by
  have hlen := congrArg List.length h
  rw [List.length_drop] at hlen
  simp only [List.length_nil] at hlen
  simp only [DerParser.is_done, decide_eq_true_eq]
  omega

/-! Base-128 and base-256 digit stacks: entries, emptiness, length and
the big-endian fold that reconstructs the encoded number. -/

/-- Every entry of the base-128 stack is below 128. -/
theorem base128_stack_entries :
    ∀ (fuel n : Nat), ∀ g ∈ base128_stack fuel n, g < 128 := by
  intro fuel
  induction fuel with
  | zero => intro n g hg; simp [base128_stack] at hg
  | succ f ih =>
    intro n g hg
    by_cases hn : n = 0
    · simp [base128_stack, hn] at hg
    · simp only [base128_stack, if_neg hn, List.mem_cons] at hg
      rcases hg with hg | hg
      · subst hg; exact Nat.mod_lt n (by norm_num)
      · exact ih _ g hg

/-- The base-128 stack of a positive number is non-empty. -/
theorem base128_stack_ne_nil (fuel n : Nat) (h0 : 0 < n) (hf : 0 < fuel) :
    base128_stack fuel n ≠ [] := by
  cases fuel with
  | zero => omega
  | succ f => simp [base128_stack, Nat.pos_iff_ne_zero.mp h0]

/-- Folding the reversed base-128 stack big-endian from `acc`
reconstructs `acc * 128 ^ digits + n`. -/
theorem base128_stack_fold :
    ∀ (fuel n : Nat), n ≤ fuel → ∀ acc : Nat,
      (base128_stack fuel n).reverse.foldl (fun a g => a * 128 + g) acc =
        acc * 128 ^ (base128_stack fuel n).length + n := by
  intro fuel
  induction fuel with
  | zero =>
    intro n hn acc
    have : n = 0 := by omega
    subst this
    simp [base128_stack]
  | succ f ih =>
    intro n hn acc
    by_cases h0 : n = 0
    · subst h0; simp [base128_stack]
    · have hrec : n / 128 ≤ f := by
        have := Nat.div_lt_self (Nat.pos_of_ne_zero h0) (show 1 < 128 by norm_num)
        omega
      have hstep := ih (n / 128) hrec
      simp only [base128_stack, if_neg h0, List.reverse_cons, List.foldl_append,
        List.length_cons]
      rw [hstep acc]
      simp only [List.foldl_cons, List.foldl_nil]
      rw [pow_succ]
      have hdm := Nat.div_add_mod n 128
      ring_nf
      omega

/-- Every entry of the base-256 stack is below 256. -/
theorem base256_stack_entries :
    ∀ (fuel n : Nat), ∀ g ∈ base256_stack fuel n, g < 256 := by
  intro fuel
  induction fuel with
  | zero => intro n g hg; simp [base256_stack] at hg
  | succ f ih =>
    intro n g hg
    by_cases hn : n = 0
    · simp [base256_stack, hn] at hg
    · simp only [base256_stack, if_neg hn, List.mem_cons] at hg
      rcases hg with hg | hg
      · subst hg; exact Nat.mod_lt n (by norm_num)
      · exact ih _ g hg

/-- The base-256 stack of a positive number is non-empty. -/
theorem base256_stack_ne_nil (fuel n : Nat) (h0 : 0 < n) (hf : 0 < fuel) :
    base256_stack fuel n ≠ [] := by
  cases fuel with
  | zero => omega
  | succ f => simp [base256_stack, Nat.pos_iff_ne_zero.mp h0]

/-- Folding the reversed base-256 stack big-endian from `acc`
reconstructs `acc * 256 ^ digits + n`. -/
theorem base256_stack_fold :
    ∀ (fuel n : Nat), n ≤ fuel → ∀ acc : Nat,
      (base256_stack fuel n).reverse.foldl (fun a g => a * 256 + g) acc =
        acc * 256 ^ (base256_stack fuel n).length + n := by
  intro fuel
  induction fuel with
  | zero =>
    intro n hn acc
    have : n = 0 := by omega
    subst this
    simp [base256_stack]
  | succ f ih =>
    intro n hn acc
    by_cases h0 : n = 0
    · subst h0; simp [base256_stack]
    · have hrec : n / 256 ≤ f := by
        have := Nat.div_lt_self (Nat.pos_of_ne_zero h0) (show 1 < 256 by norm_num)
        omega
      have hstep := ih (n / 256) hrec
      simp only [base256_stack, if_neg h0, List.reverse_cons, List.foldl_append,
        List.length_cons]
      rw [hstep acc]
      simp only [List.foldl_cons, List.foldl_nil]
      rw [pow_succ]
      have hdm := Nat.div_add_mod n 256
      ring_nf
      omega

/-- A number below `256 ^ m` has at most `m` base-256 digits. -/
theorem base256_stack_length_le :
    ∀ (fuel n m : Nat), n < 256 ^ m → (base256_stack fuel n).length ≤ m := by
  intro fuel
  induction fuel with
  | zero => intro n m _; simp [base256_stack]
  | succ f ih =>
    intro n m hn
    by_cases h0 : n = 0
    · simp [base256_stack, h0]
    · cases m with
      | zero => simp at hn; omega
      | succ m1 =>
        simp only [base256_stack, if_neg h0, List.length_cons]
        have : n / 256 < 256 ^ m1 := by
          apply Nat.div_lt_of_lt_mul
          rw [pow_succ] at hn
          omega
        have := ih (n / 256) m1 this
        omega

/-- `mark_continuations` preserves length. -/
theorem mark_continuations_length :
    ∀ gs : List Nat, (mark_continuations gs).length = gs.length := by
  intro gs
  induction gs with
  | nil => rfl
  | cons b rest ih =>
    cases rest with
    | nil => rfl
    | cons c rest2 =>
      simp only [mark_continuations, List.length_cons] at ih ⊢
      omega

/-- The big-endian fold is monotone in the accumulator seed. -/
theorem foldl_mul_add_le (B : Nat) (hB : 1 ≤ B) :
    ∀ (gs : List Nat) (acc : Nat), acc ≤ gs.foldl (fun a g => a * B + g) acc := by
  intro gs
  induction gs with
  | nil => intro acc; simp
  | cons g gs2 ih =>
    intro acc
    simp only [List.foldl_cons]
    calc acc ≤ acc * B + g := by
          have : acc * 1 ≤ acc * B := Nat.mul_le_mul_left acc hB
          omega
      _ ≤ gs2.foldl (fun a g => a * B + g) (acc * B + g) := ih _

/-- Below the modulus, the wrapping big-endian fold agrees with the
plain one. -/
theorem foldl_wrap_eq (B M : Nat) (hB : 1 ≤ B) :
    ∀ (gs : List Nat) (acc : Nat), (∀ g ∈ gs, g < B) →
      gs.foldl (fun a g => a * B + g) acc < M →
      gs.foldl (fun a g => (a * B) % M + g % B) acc =
        gs.foldl (fun a g => a * B + g) acc := by
  intro gs
  induction gs with
  | nil => intro acc _ _; rfl
  | cons g gs2 ih =>
    intro acc hmem hbound
    simp only [List.foldl_cons] at hbound ⊢
    have hg : g < B := hmem g (List.mem_cons_self g gs2)
    have hmono := foldl_mul_add_le B hB gs2 (acc * B + g)
    have hlt : acc * B + g < M := lt_of_le_of_lt hmono hbound
    have h1 : (acc * B) % M = acc * B := Nat.mod_eq_of_lt (by omega)
    have h2 : g % B = g := Nat.mod_eq_of_lt hg
    rw [h1, h2]
    exact ih (acc * B + g) (fun x hx => hmem x (List.mem_cons_of_mem g hx)) hbound

/-- The base-128 continuation loop over the marked groups `gs` (each
below 128, non-empty) consumes exactly them and computes the wrapping
big-endian fold of the groups. -/
theorem read_tag_number_loop_of_groups :
    ∀ (gs : List Nat) (s : List Nat) (k acc fuel : Nat) (rest : List Nat),
      gs ≠ [] → (∀ g ∈ gs, g < 128) →
      s.drop k = mark_continuations gs ++ rest →
      gs.length ≤ fuel →
      DerParser.read_tag_number_loop fuel { input := s, position := k } acc =
        some (gs.foldl (fun a g => (a * 128) % 2 ^ 32 + g % 128) acc,
          { input := s, position := k + gs.length }) := by
  intro gs
  induction gs with
  | nil => intro s k acc fuel rest hne; exact absurd rfl hne
  | cons g gs2 ih =>
    intro s k acc fuel rest hne hmem h hfuel
    have hg : g < 128 := hmem g (List.mem_cons_self g gs2)
    cases fuel with
    | zero => simp at hfuel
    | succ f =>
      cases gs2 with
      | nil =>
        simp only [mark_continuations, List.cons_append, List.nil_append] at h
        have hb := read_byte_of_drop (p := { input := s, position := k }) h
        simp only [DerParser.read_tag_number_loop, hb]
        have hdiv : g / 128 % 2 = 0 := by omega
        simp [hdiv]
      | cons g2 gs3 =>
        have hmark : mark_continuations (g :: g2 :: gs3) =
            (128 + g) :: mark_continuations (g2 :: gs3) := rfl
        rw [hmark, List.cons_append] at h
        have hb := read_byte_of_drop (p := { input := s, position := k }) h
        simp only [DerParser.read_tag_number_loop, hb]
        have hdiv : (128 + g) / 128 % 2 = 1 := by omega
        have hdiv0 : ¬((128 + g) / 128 % 2 = 0) := by omega
        simp only [hdiv0, if_false]
        have hmod : (128 + g) % 128 = g % 128 := by omega
        rw [hmod]
        have hdrop : s.drop (k + 1) = mark_continuations (g2 :: gs3) ++ rest :=
          drop_succ_of_drop_cons h
        have := ih s (k + 1) ((acc * 128) % 2 ^ 32 + g % 128) f rest (by simp)
          (fun x hx => hmem x (List.mem_cons_of_mem g hx)) hdrop (by
            simp only [List.length_cons] at hfuel
            simp only [List.length_cons]
            omega)
        rw [this]
        have hlen : k + 1 + (g2 :: gs3).length = k + (g :: g2 :: gs3).length := by
          simp only [List.length_cons]
          omega
        rw [hlen]
        simp only [List.foldl_cons]

/-- The top two bits of the first tag byte recover the class value. -/
theorem tag_first_byte_div64 (t : Tag) (low : Nat) (hlow : low < 32) :
    (tag_first_byte t + low) / 64 % 4 = tag_class_value t.cls := by
  obtain ⟨c, d, n⟩ := t
  cases c <;> cases d <;> simp [tag_first_byte, tag_class_value] <;> omega

/-- Bit 5 of the first tag byte recovers the constructed flag. -/
theorem tag_first_byte_div32 (t : Tag) (low : Nat) (hlow : low < 32) :
    decide ((tag_first_byte t + low) / 32 % 2 = 1) = t.constructed := by
  obtain ⟨c, d, n⟩ := t
  cases c <;> cases d <;> simp [tag_first_byte, tag_class_value] <;> omega

/-- The low five bits of the first tag byte recover the low tag value. -/
theorem tag_first_byte_mod32 (t : Tag) (low : Nat) (hlow : low < 32) :
    (tag_first_byte t + low) % 32 = low := by
  obtain ⟨c, d, n⟩ := t
  cases c <;> cases d <;> simp [tag_first_byte, tag_class_value] <;> omega

/-- Decoding the canonical tag byte block produced by
`encode_tag_bytes` recovers the tag and stops right after it. -/
theorem read_tag_of_encode {s : List Nat} {k : Nat} {rest : List Nat} (tag : Tag)
    (hnum : tag.number < 2 ^ 32)
    (h : s.drop k = encode_tag_bytes tag ++ rest) :
    DerParser.read_tag { input := s, position := k } =
      some (tag, { input := s, position := k + (encode_tag_bytes tag).length }) := by
  by_cases h31 : tag.number < 31
  · have henc : encode_tag_bytes tag = [tag_first_byte tag + tag.number] := by
      simp [encode_tag_bytes, h31]
    rw [henc, List.singleton_append] at h
    have hb := read_byte_of_drop (p := { input := s, position := k }) h
    simp only [DerParser.read_tag, hb]
    rw [tag_first_byte_div64 tag tag.number (by omega),
      tag_first_byte_mod32 tag tag.number (by omega),
      tag_first_byte_div32 tag tag.number (by omega)]
    rw [if_neg (by omega : ¬ tag.number = 31)]
    rw [henc]
    obtain ⟨c, d, n⟩ := tag
    cases c <;> simp [tag_class_value]
  · have henc : encode_tag_bytes tag =
        (tag_first_byte tag + 31) ::
          mark_continuations (base128_stack tag.number tag.number).reverse := by
      simp [encode_tag_bytes, h31]
    rw [henc, List.cons_append] at h
    have hb := read_byte_of_drop (p := { input := s, position := k }) h
    simp only [DerParser.read_tag, hb]
    rw [tag_first_byte_div64 tag 31 (by omega),
      tag_first_byte_mod32 tag 31 (by omega),
      tag_first_byte_div32 tag 31 (by omega)]
    rw [if_pos rfl]
    obtain ⟨cls, ctd, number⟩ := tag
    simp only at h31 hnum h ⊢
    have hpos : 0 < number := by omega
    have hne : (base128_stack number number).reverse ≠ [] := by
      intro hrev
      exact base128_stack_ne_nil number number hpos hpos (List.reverse_eq_nil_iff.mp hrev)
    have hmem : ∀ g ∈ (base128_stack number number).reverse, g < 128 := by
      intro g hg
      exact base128_stack_entries number number g (List.mem_reverse.mp hg)
    have hdrop : s.drop (k + 1) =
        mark_continuations (base128_stack number number).reverse ++ rest :=
      drop_succ_of_drop_cons h
    have hlen := congrArg List.length hdrop
    rw [List.length_drop, List.length_append, mark_continuations_length] at hlen
    have hfuel : (base128_stack number number).reverse.length ≤ s.length + 1 := by omega
    have hloop := read_tag_number_loop_of_groups (base128_stack number number).reverse
      s (k + 1) 0 (s.length + 1) rest hne hmem hdrop hfuel
    have hplain : (base128_stack number number).reverse.foldl
        (fun a g => a * 128 + g) 0 = number := by
      rw [base128_stack_fold number number le_rfl 0]
      simp
    have hwrap : (base128_stack number number).reverse.foldl
        (fun a g => (a * 128) % 2 ^ 32 + g % 128) 0 = number := by
      rw [foldl_wrap_eq 128 (2 ^ 32) (by norm_num) _ 0 hmem (by rw [hplain]; exact hnum)]
      exact hplain
    rw [hwrap] at hloop
    rw [hloop, henc]
    simp only [List.length_cons, mark_continuations_length, List.length_reverse]
    cases cls <;> simp [tag_class_value] <;> omega

/-- Decoding the canonical length byte block produced by
`encode_length_bytes` recovers the length and stops right after it. -/
theorem read_length_of_encode {s : List Nat} {k : Nat} {rest : List Nat} (n : Nat)
    (hn : n < 2 ^ 64)
    (h : s.drop k = encode_length_bytes n ++ rest) :
    DerParser.read_length { input := s, position := k } =
      some (n, { input := s, position := k + (encode_length_bytes n).length }) := by
  by_cases h128 : n < 128
  · have henc : encode_length_bytes n = [n] := by
      simp [encode_length_bytes, h128]
    rw [henc, List.singleton_append] at h
    have hb := read_byte_of_drop (p := { input := s, position := k }) h
    simp only [DerParser.read_length, hb]
    rw [if_pos (by omega : n / 128 % 2 = 0)]
    rw [henc]
    simp
  · have henc : encode_length_bytes n =
        (128 + (base256_stack n n).reverse.length) :: (base256_stack n n).reverse := by
      simp [encode_length_bytes, h128]
    have hpos : 0 < n := by omega
    have hnn : (base256_stack n n).reverse ≠ [] := by
      intro hrev
      exact base256_stack_ne_nil n n hpos hpos (List.reverse_eq_nil_iff.mp hrev)
    have hcnt1 : 1 ≤ (base256_stack n n).reverse.length := by
      cases hc : (base256_stack n n).reverse with
      | nil => exact absurd hc hnn
      | cons a l => simp
    have hcnt8 : (base256_stack n n).reverse.length ≤ 8 := by
      rw [List.length_reverse]
      exact base256_stack_length_le n n 8 (by norm_num at hn ⊢; omega)
    rw [henc, List.cons_append] at h
    have hb := read_byte_of_drop (p := { input := s, position := k }) h
    simp only [DerParser.read_length, hb]
    rw [if_neg (by omega : ¬ (128 + (base256_stack n n).reverse.length) / 128 % 2 = 0)]
    rw [show (128 + (base256_stack n n).reverse.length) % 128 =
        (base256_stack n n).reverse.length from by omega]
    rw [if_neg (by omega : ¬ (base256_stack n n).reverse.length = 0)]
    have hlen := congrArg List.length h
    rw [List.length_drop] at hlen
    simp only [List.length_cons, List.length_append] at hlen
    have hdrop : s.drop (k + 1) = (base256_stack n n).reverse ++ rest :=
      drop_succ_of_drop_cons h
    have hrn := read_n_of_drop (p := { input := s, position := k + 1 })
      (by simp; omega) hdrop rfl
    rw [hrn]
    simp only []
    have hmem : ∀ g ∈ (base256_stack n n).reverse, g < 256 := by
      intro g hg
      exact base256_stack_entries n n g (List.mem_reverse.mp hg)
    have hplain : (base256_stack n n).reverse.foldl
        (fun a g => a * 256 + g) 0 = n := by
      rw [base256_stack_fold n n le_rfl 0]
      simp
    have hfold : DerParser.length_fold (base256_stack n n).reverse = n := by
      unfold DerParser.length_fold
      rw [foldl_wrap_eq 256 (2 ^ 64) (by norm_num) _ 0 hmem (by rw [hplain]; exact hn)]
      exact hplain
    rw [hfold, henc]
    simp only [List.length_cons]
    rw [show k + 1 + (base256_stack n n).reverse.length =
      k + ((base256_stack n n).reverse.length + 1) from by omega]

/-! Shape facts about the encoder output. -/

/-- The tag byte block is never empty. -/
theorem encode_tag_bytes_ne_nil (tag : Tag) : encode_tag_bytes tag ≠ [] := by
  unfold encode_tag_bytes
  split <;> simp

/-- The length byte block is never empty. -/
theorem encode_length_bytes_ne_nil (n : Nat) : encode_length_bytes n ≠ [] := by
  unfold encode_length_bytes
  split <;> simp

/-- The full encoding of a primitive object, split into its blocks. -/
theorem encode_object_prim (tag : Tag) (L : Nat) (bytes : List Nat) :
    encode_object (OwnedObject.mk tag L (OwnedValue.Primitive bytes)) =
      encode_tag_bytes tag ++ encode_length_bytes L ++ bytes := rfl

/-- The full encoding of a constructed object, split into its blocks. -/
theorem encode_object_cons (tag : Tag) (L : Nat) (children : List OwnedObject) :
    encode_object (OwnedObject.mk tag L (OwnedValue.Constructed children)) =
      encode_tag_bytes tag ++ encode_length_bytes L ++ encode_children children := rfl

/-- The concatenated encoding of an empty object list. -/
theorem encode_all_nil : encode_all [] = [] := rfl

/-- The concatenated encoding of a non-empty object list. -/
theorem encode_all_cons (o : OwnedObject) (os : List OwnedObject) :
    encode_all (o :: os) = encode_object o ++ encode_all os := rfl

/-- A full object encoding holds at least a tag byte and a length
byte. -/
theorem encode_object_length_ge_two (o : OwnedObject) : 2 ≤ (encode_object o).length := by
  obtain ⟨tag, L, val⟩ := o
  have h1 := List.length_pos.mpr (encode_tag_bytes_ne_nil tag)
  have h2 := List.length_pos.mpr (encode_length_bytes_ne_nil L)
  cases val with
  | Primitive bytes =>
    rw [encode_object_prim]
    simp only [List.length_append]
    omega
  | Constructed children =>
    rw [encode_object_cons]
    simp only [List.length_append]
    omega

/-- `to_owned` on a primitive parsed object. -/
theorem to_owned_prim (tag : Tag) (bytes : List Nat) :
    to_owned (ASN1Object.mk tag (ASN1Value.Primitive bytes)) =
      OwnedObject.mk tag bytes.length (OwnedValue.Primitive bytes) := rfl

/-- `to_owned` on a constructed parsed object. -/
theorem to_owned_cons (tag : Tag) (cs : List ASN1Object) :
    to_owned (ASN1Object.mk tag (ASN1Value.Constructed cs)) =
      OwnedObject.mk tag (encode_all (to_owned_list cs)).length
        (OwnedValue.Constructed (to_owned_list cs)) := rfl

/-- More fuel never turns a successful `parse_tlv` or `parse_all_fuel`
run into a different result: fuel only cuts runs short. -/
theorem parse_mono (fuel : Nat) :
    (∀ (p : DerParser) (x : ASN1Object × DerParser) (fuel1 : Nat), fuel ≤ fuel1 →
      DerParser.parse_tlv fuel p = .ok x → DerParser.parse_tlv fuel1 p = .ok x) ∧
    (∀ (p : DerParser) (xs : List ASN1Object) (fuel1 : Nat), fuel ≤ fuel1 →
      DerParser.parse_all_fuel fuel p = .ok xs →
      DerParser.parse_all_fuel fuel1 p = .ok xs) := by
  induction fuel with
  | zero =>
    constructor
    · intro p x f1 _ hok
      simp [DerParser.parse_tlv] at hok
    · intro p xs f1 _ hok
      simp [DerParser.parse_all_fuel] at hok
  | succ f ih =>
    obtain ⟨ih1, ih2⟩ := ih
    constructor
    · intro p x f1 hle hok
      cases f1 with
      | zero => omega
      | succ f2 =>
        have hle2 : f ≤ f2 := by omega
        simp only [DerParser.parse_tlv] at hok ⊢
        cases htag : DerParser.read_tag p with
        | none => rw [htag] at hok; exact absurd hok (by simp)
        | some tp =>
          obtain ⟨tag, p1⟩ := tp
          rw [htag] at hok
          simp only [] at hok ⊢
          cases hlen : DerParser.read_length p1 with
          | none => rw [hlen] at hok; exact absurd hok (by simp)
          | some lp =>
            obtain ⟨length, p2⟩ := lp
            rw [hlen] at hok
            simp only [] at hok ⊢
            cases hval : DerParser.read_value p2 length with
            | none => rw [hval] at hok; exact absurd hok (by simp)
            | some vp =>
              obtain ⟨value, p3⟩ := vp
              rw [hval] at hok
              simp only [] at hok ⊢
              by_cases hc : tag.constructed = true
              · rw [if_pos hc] at hok ⊢
                cases hpa : DerParser.parse_all_fuel f (DerParser.new value) with
                | error e => rw [hpa] at hok; exact absurd hok (by simp)
                | ok children =>
                  rw [hpa] at hok
                  rw [ih2 _ _ f2 hle2 hpa]
                  exact hok
              · rw [if_neg hc] at hok ⊢
                exact hok
    · intro p xs f1 hle hok
      cases f1 with
      | zero => omega
      | succ f2 =>
        have hle2 : f ≤ f2 := by omega
        simp only [DerParser.parse_all_fuel] at hok ⊢
        by_cases hdone : DerParser.is_done p = true
        · rw [if_pos hdone] at hok ⊢
          exact hok
        · rw [if_neg hdone] at hok ⊢
          cases htlv : DerParser.parse_tlv f p with
          | error e => rw [htlv] at hok; exact absurd hok (by simp)
          | ok op =>
            obtain ⟨object, p1⟩ := op
            rw [htlv] at hok
            rw [ih1 _ _ f2 hle2 htlv]
            simp only [] at hok ⊢
            cases hrest : DerParser.parse_all_fuel f p1 with
            | error e => rw [hrest] at hok; exact absurd hok (by simp)
            | ok rest2 =>
              rw [hrest] at hok
              rw [ih2 _ _ f2 hle2 hrest]
              exact hok

mutual
/-- Round trip, single object: parsing a well-formed object's canonical
encoding (followed by anything) succeeds, consumes exactly the encoding,
and gives back the object through `to_owned`. -/
theorem parse_tlv_of_encode (o : OwnedObject) (fuel : Nat) (s : List Nat) (k : Nat)
    (rest : List Nat) (hwf : WFObj o) (h : s.drop k = encode_object o ++ rest)
    (hfuel : (encode_object o).length ≤ fuel) :
    ∃ c : ASN1Object,
      DerParser.parse_tlv fuel { input := s, position := k } =
        .ok (c, { input := s, position := k + (encode_object o).length }) ∧
      to_owned c = o := by
  cases hwf with
  | prim tag bytes hctd hnum hblen =>
    rw [encode_object_prim, List.append_assoc, List.append_assoc] at h
    have htag := read_tag_of_encode tag hnum h
    have hdrop1 : s.drop (k + (encode_tag_bytes tag).length) =
        encode_length_bytes bytes.length ++ (bytes ++ rest) := drop_add_of_drop_append h
    have hlength := read_length_of_encode bytes.length hblen hdrop1
    have hdrop2 : s.drop (k + (encode_tag_bytes tag).length +
        (encode_length_bytes bytes.length).length) = bytes ++ rest :=
      drop_add_of_drop_append hdrop1
    have hlen1 := congrArg List.length hdrop1
    rw [List.length_drop, List.length_append] at hlen1
    have hlb := List.length_pos.mpr (encode_length_bytes_ne_nil bytes.length)
    have hpos2 : k + (encode_tag_bytes tag).length +
        (encode_length_bytes bytes.length).length ≤ s.length := by omega
    have hval := read_n_of_drop
      (p := { input := s
              position := k + (encode_tag_bytes tag).length +
                (encode_length_bytes bytes.length).length })
      hpos2 hdrop2 rfl
    cases fuel with
    | zero =>
      have := encode_object_length_ge_two
        (OwnedObject.mk tag bytes.length (OwnedValue.Primitive bytes))
      omega
    | succ f =>
      refine ⟨ASN1Object.mk tag (ASN1Value.Primitive bytes), ?_, rfl⟩
      simp only [DerParser.parse_tlv, htag, hlength, DerParser.read_value, hval]
      rw [hctd]
      simp only [Bool.false_eq_true, if_false, encode_object_prim, List.length_append]
      rw [show k + (encode_tag_bytes tag).length +
          (encode_length_bytes bytes.length).length + bytes.length =
        k + ((encode_tag_bytes tag).length +
          (encode_length_bytes bytes.length).length + bytes.length) from by omega]
  | cons tag children hctd hnum hclen hwfl =>
    rw [encode_object_cons, List.append_assoc, List.append_assoc] at h
    have htag := read_tag_of_encode tag hnum h
    have hdrop1 : s.drop (k + (encode_tag_bytes tag).length) =
        encode_length_bytes (encode_children children).length ++
          (encode_children children ++ rest) := drop_add_of_drop_append h
    have hlength := read_length_of_encode (encode_children children).length hclen hdrop1
    have hdrop2 : s.drop (k + (encode_tag_bytes tag).length +
        (encode_length_bytes (encode_children children).length).length) =
        encode_children children ++ rest := drop_add_of_drop_append hdrop1
    have hlen1 := congrArg List.length hdrop1
    rw [List.length_drop, List.length_append] at hlen1
    have hlb := List.length_pos.mpr
      (encode_length_bytes_ne_nil (encode_children children).length)
    have htb := List.length_pos.mpr (encode_tag_bytes_ne_nil tag)
    have hpos2 : k + (encode_tag_bytes tag).length +
        (encode_length_bytes (encode_children children).length).length ≤ s.length := by
      omega
    have hval := read_n_of_drop
      (p := { input := s
              position := k + (encode_tag_bytes tag).length +
                (encode_length_bytes (encode_children children).length).length })
      hpos2 hdrop2 rfl
    cases fuel with
    | zero =>
      have := encode_object_length_ge_two
        (OwnedObject.mk tag (encode_children children).length
          (OwnedValue.Constructed children))
      omega
    | succ f =>
      have hflen : (encode_object (OwnedObject.mk tag (encode_children children).length
          (OwnedValue.Constructed children))).length ≤ f + 1 := hfuel
      rw [encode_object_cons] at hflen
      simp only [List.length_append] at hflen
      have hlen_eq : (encode_all children).length = (encode_children children).length := rfl
      have hrec := parse_all_of_encode children f (encode_children children) 0 hwfl
        (by rw [List.drop_zero]; rfl) (by omega)
      obtain ⟨cs, hcs, hcso⟩ := hrec
      refine ⟨ASN1Object.mk tag (ASN1Value.Constructed cs), ?_, ?_⟩
      · simp only [DerParser.parse_tlv, htag, hlength, DerParser.read_value, hval]
        rw [hctd]
        simp only [if_true]
        have hnew : DerParser.new (encode_children children) =
            { input := encode_children children, position := 0 } := rfl
        rw [hnew, hcs]
        simp only [encode_object_cons, List.length_append]
        rw [show k + (encode_tag_bytes tag).length +
            (encode_length_bytes (encode_children children).length).length +
            (encode_children children).length =
          k + ((encode_tag_bytes tag).length +
            (encode_length_bytes (encode_children children).length).length +
            (encode_children children).length) from by omega]
      · rw [to_owned_cons, hcso]
        rfl
termination_by sizeOf o

/-- Round trip, object list: parsing the exact canonical encoding of a
well-formed list until exhaustion succeeds and gives back the list
through `to_owned`. -/
theorem parse_all_of_encode (os : List OwnedObject) (fuel : Nat) (s : List Nat) (k : Nat)
    (hwf : WFList os) (h : s.drop k = encode_all os)
    (hfuel : (encode_all os).length + 1 ≤ fuel) :
    ∃ cs : List ASN1Object,
      DerParser.parse_all_fuel fuel { input := s, position := k } = .ok cs ∧
      to_owned_list cs = os := by
  cases hwf with
  | nil =>
    cases fuel with
    | zero => omega
    | succ f =>
      rw [encode_all_nil] at h
      refine ⟨[], ?_, rfl⟩
      simp [DerParser.parse_all_fuel,
        is_done_true_of_drop (p := { input := s, position := k }) h]
  | cons o os2 hwfo hwfos =>
    rw [encode_all_cons] at h
    have hge2 := encode_object_length_ge_two o
    have hlen := congrArg List.length h
    rw [List.length_drop, List.length_append] at hlen
    cases fuel with
    | zero =>
      rw [encode_all_cons] at hfuel
      simp only [List.length_append] at hfuel
      omega
    | succ f =>
      rw [encode_all_cons] at hfuel
      simp only [List.length_append] at hfuel
      have hdone : DerParser.is_done { input := s, position := k } = false := by
        cases henco : encode_object o with
        | nil =>
          rw [henco] at hge2
          simp at hge2
        | cons b bs =>
          rw [henco, List.cons_append] at h
          exact is_done_false_of_drop h
      have hrec1 := parse_tlv_of_encode o f s k (encode_all os2) hwfo h (by omega)
      obtain ⟨c, hc, hco⟩ := hrec1
      have hdrop2 : s.drop (k + (encode_object o).length) = encode_all os2 :=
        drop_add_of_drop_append h
      have hrec2 := parse_all_of_encode os2 f s (k + (encode_object o).length) hwfos
        hdrop2 (by omega)
      obtain ⟨cs2, hcs2, hcs2o⟩ := hrec2
      refine ⟨c :: cs2, ?_, ?_⟩
      · simp only [DerParser.parse_all_fuel, hdone, Bool.false_eq_true, if_false, hc,
          hcs2]
      · show to_owned c :: to_owned_list cs2 = o :: os2
        rw [hco, hcs2o]
termination_by sizeOf os
end

/-- `read_byte` never changes the underlying input slice. -/
theorem read_byte_input_eq {p : DerParser} {b : Nat} {p1 : DerParser}
    (h : DerParser.read_byte p = some (b, p1)) : p1.input = p.input := by
  simp only [DerParser.read_byte] at h
  split at h
  · rw [Option.some.injEq, Prod.mk.injEq] at h
    obtain ⟨-, h2⟩ := h
    rw [← h2]
  · exact absurd h (by simp)

/-- `read_n` never changes the underlying input slice. -/
theorem read_n_input_eq {p : DerParser} {n : Nat} {xs : List Nat} {p1 : DerParser}
    (h : DerParser.read_n p n = some (xs, p1)) : p1.input = p.input := by
  simp only [DerParser.read_n] at h
  split at h
  · rw [Option.some.injEq, Prod.mk.injEq] at h
    obtain ⟨-, h2⟩ := h
    rw [← h2]
  · exact absurd h (by simp)

/-- The base-128 continuation loop never changes the underlying input
slice. -/
theorem read_tag_number_loop_input_eq :
    ∀ (fuel : Nat) {p : DerParser} {acc n : Nat} {p1 : DerParser},
      DerParser.read_tag_number_loop fuel p acc = some (n, p1) → p1.input = p.input := by
  intro fuel
  induction fuel with
  | zero => intro p acc n p1 h; simp [DerParser.read_tag_number_loop] at h
  | succ f ih =>
    intro p acc n p1 h
    simp only [DerParser.read_tag_number_loop] at h
    cases hb : DerParser.read_byte p with
    | none => rw [hb] at h; exact absurd h (by simp)
    | some bp =>
      obtain ⟨byte, p2⟩ := bp
      rw [hb] at h
      simp only [] at h
      by_cases hbit : byte / 128 % 2 = 0
      · rw [if_pos hbit, Option.some.injEq, Prod.mk.injEq] at h
        obtain ⟨-, h2⟩ := h
        rw [← h2]
        exact read_byte_input_eq hb
      · rw [if_neg hbit] at h
        rw [ih h]
        exact read_byte_input_eq hb

/-- `read_tag` never changes the underlying input slice. -/
theorem read_tag_input_eq {p : DerParser} {t : Tag} {p1 : DerParser}
    (h : DerParser.read_tag p = some (t, p1)) : p1.input = p.input := by
  simp only [DerParser.read_tag] at h
  cases hb : DerParser.read_byte p with
  | none => rw [hb] at h; exact absurd h (by simp)
  | some bp =>
    obtain ⟨fb, p2⟩ := bp
    rw [hb] at h
    simp only [] at h
    by_cases h31 : fb % 32 = 31
    · rw [if_pos h31] at h
      cases hloop : DerParser.read_tag_number_loop (p2.input.length + 1) p2 0 with
      | none => rw [hloop] at h; exact absurd h (by simp)
      | some np =>
        obtain ⟨n, p3⟩ := np
        rw [hloop] at h
        rw [Option.some.injEq, Prod.mk.injEq] at h
        obtain ⟨-, h2⟩ := h
        rw [← h2, read_tag_number_loop_input_eq _ hloop]
        exact read_byte_input_eq hb
    · rw [if_neg h31, Option.some.injEq, Prod.mk.injEq] at h
      obtain ⟨-, h2⟩ := h
      rw [← h2]
      exact read_byte_input_eq hb

/-- `read_length` never changes the underlying input slice. -/
theorem read_length_input_eq {p : DerParser} {n : Nat} {p1 : DerParser}
    (h : DerParser.read_length p = some (n, p1)) : p1.input = p.input := by
  simp only [DerParser.read_length] at h
  cases hb : DerParser.read_byte p with
  | none => rw [hb] at h; exact absurd h (by simp)
  | some bp =>
    obtain ⟨first, p2⟩ := bp
    rw [hb] at h
    simp only [] at h
    by_cases hshort : first / 128 % 2 = 0
    · rw [if_pos hshort, Option.some.injEq, Prod.mk.injEq] at h
      obtain ⟨-, h2⟩ := h
      rw [← h2]
      exact read_byte_input_eq hb
    · rw [if_neg hshort] at h
      by_cases h0 : first % 128 = 0
      · rw [if_pos h0] at h; exact absurd h (by simp)
      · rw [if_neg h0] at h
        cases hn : DerParser.read_n p2 (first % 128) with
        | none => rw [hn] at h; exact absurd h (by simp)
        | some xp =>
          obtain ⟨xs, p3⟩ := xp
          rw [hn] at h
          rw [Option.some.injEq, Prod.mk.injEq] at h
          obtain ⟨-, h2⟩ := h
          rw [← h2, read_n_input_eq hn]
          exact read_byte_input_eq hb

/-- C1 as amended: for every object the decoder produces with a
constructed tag, the children are decoded from exactly the
declared-length value slice of the input — the `take length` of the
input at the cursor after the length bytes, never bytes beyond it — and,
provided that slice is itself a canonical DER encoding (the output of
the section 4.1 reverse rules on some well-formed tree), re-encoding
each child through `get_tag_length_value_bytes` and concatenating
reconstructs exactly that slice.  (The counterexample shows the
re-encoding identity fails without the canonicity proviso, for a
non-minimally encoded child length.) -/
theorem claim_C1_amended (fuel : Nat) (p : DerParser) (tag : Tag)
    (children : List ASN1Object) (p3 : DerParser)
    (h : DerParser.parse_tlv fuel p =
      .ok (ASN1Object.mk tag (ASN1Value.Constructed children), p3)) :
    ∃ (length : Nat) (p1 p2 : DerParser) (V : List Nat),
      DerParser.read_tag p = some (tag, p1) ∧
      DerParser.read_length p1 = some (length, p2) ∧
      p2.input = p.input ∧
      V = (p.input.drop p2.position).take length ∧
      V.length = length ∧
      p2.position + length ≤ p.input.length ∧
      p3 = { input := p.input, position := p2.position + length } ∧
      (∃ f1 : Nat, DerParser.parse_all_fuel f1 (DerParser.new V) = .ok children) ∧
      (∀ os : List OwnedObject, WFList os → encode_all os = V →
        encode_all (to_owned_list children) = V) := by
  cases fuel with
  | zero => simp [DerParser.parse_tlv] at h
  | succ f =>
    simp only [DerParser.parse_tlv] at h
    cases htag : DerParser.read_tag p with
    | none => rw [htag] at h; exact absurd h (by simp)
    | some tp =>
      obtain ⟨tag0, p1⟩ := tp
      rw [htag] at h
      simp only [] at h
      cases hlen : DerParser.read_length p1 with
      | none => rw [hlen] at h; exact absurd h (by simp)
      | some lp =>
        obtain ⟨length, p2⟩ := lp
        rw [hlen] at h
        simp only [] at h
        cases hval : DerParser.read_value p2 length with
        | none => rw [hval] at h; exact absurd h (by simp)
        | some vp =>
          obtain ⟨V, p3x⟩ := vp
          rw [hval] at h
          simp only [] at h
          by_cases hc : tag0.constructed = true
          · rw [if_pos hc] at h
            cases hpa : DerParser.parse_all_fuel f (DerParser.new V) with
            | error e => rw [hpa] at h; exact absurd h (by simp)
            | ok cs =>
              rw [hpa] at h
              simp only [Except.ok.injEq, Prod.mk.injEq] at h
              obtain ⟨hobj, hp3⟩ := h
              have htag_eq : tag0 = tag := by
                have := congrArg ASN1Object.tag hobj
                simpa [ASN1Object.tag] using this
              have hcs_eq : cs = children := by
                have := congrArg ASN1Object.value hobj
                simp only [ASN1Object.value] at this
                injection this
              have hinput : p2.input = p.input := by
                rw [read_length_input_eq hlen, read_tag_input_eq htag]
              simp only [DerParser.read_value, DerParser.read_n] at hval
              split at hval
              next hbound =>
                rw [Option.some.injEq, Prod.mk.injEq] at hval
                obtain ⟨hV, hp3x⟩ := hval
                subst htag_eq
                refine ⟨length, p1, p2, V, rfl, hlen, hinput, ?_, ?_, ?_, ?_, ?_, ?_⟩
                · rw [← hV, hinput]
                · rw [← hV]
                  rw [List.length_take, List.length_drop]
                  omega
                · rw [← hinput]; exact hbound
                · rw [← hp3, ← hp3x, hinput]
                · exact ⟨f, by rw [hpa, hcs_eq]⟩
                · intro os hwf heq
                  have hlift := (parse_mono f).2 (DerParser.new V) cs
                    (max f ((encode_all os).length + 1)) (le_max_left _ _) hpa
                  have hrt := parse_all_of_encode os
                    (max f ((encode_all os).length + 1)) V 0 hwf
                    (by rw [List.drop_zero, heq]) (le_max_right _ _)
                  obtain ⟨cs2, hcs2, hcs2o⟩ := hrt
                  have hnew : DerParser.new V = { input := V, position := 0 } := rfl
                  rw [hnew] at hlift
                  rw [hlift] at hcs2
                  rw [Except.ok.injEq] at hcs2
                  rw [← hcs_eq, hcs2, hcs2o, heq]
              next => exact absurd hval (by simp)
          · rw [if_neg hc] at h
            simp only [Except.ok.injEq, Prod.mk.injEq] at h
            obtain ⟨hobj, -⟩ := h
            have := congrArg ASN1Object.value hobj
            simp only [ASN1Object.value] at this
            exact absurd this (by simp)

/-- Witness for C1 as amended, at the SEQUENCE `30 03 02 01 07`. -/
theorem claim_C1_amended_witness :
    ∃ (length : Nat) (p1 p2 : DerParser) (V : List Nat),
      DerParser.read_tag (DerParser.new [0x30, 0x03, 0x02, 0x01, 0x07]) =
        some (⟨TagClass.Universal, true, 16⟩, p1) ∧
      DerParser.read_length p1 = some (length, p2) ∧
      p2.input = (DerParser.new [0x30, 0x03, 0x02, 0x01, 0x07]).input ∧
      V = (((DerParser.new [0x30, 0x03, 0x02, 0x01, 0x07]).input.drop p2.position).take
        length) ∧
      V.length = length ∧
      p2.position + length ≤ (DerParser.new [0x30, 0x03, 0x02, 0x01, 0x07]).input.length ∧
      ({ input := [0x30, 0x03, 0x02, 0x01, 0x07], position := 5 } : DerParser) =
        { input := (DerParser.new [0x30, 0x03, 0x02, 0x01, 0x07]).input
          position := p2.position + length } ∧
      (∃ f1 : Nat, DerParser.parse_all_fuel f1 (DerParser.new V) =
        .ok [ASN1Object.mk ⟨TagClass.Universal, false, 2⟩ (ASN1Value.Primitive [7])]) ∧
      (∀ os : List OwnedObject, WFList os → encode_all os = V →
        encode_all (to_owned_list
          [ASN1Object.mk ⟨TagClass.Universal, false, 2⟩ (ASN1Value.Primitive [7])]) = V) :=
  claim_C1_amended 6 (DerParser.new [0x30, 0x03, 0x02, 0x01, 0x07])
    ⟨TagClass.Universal, true, 16⟩
    [ASN1Object.mk ⟨TagClass.Universal, false, 2⟩ (ASN1Value.Primitive [7])]
    { input := [0x30, 0x03, 0x02, 0x01, 0x07], position := 5 } rfl

end Asn1Smith
